import Mathlib

/-!
Verification of the `sn_routing_sims` probability/simulation engine.

The Rust sources embedded here are `src/src/main.rs` (parameter conversion
`ToolArgs::from_params` and the parallel parameter sweep), `src/src/lib.rs`
(the `Quorum` and `SimTool` trait contracts) and
`src/examples/random_allocation.rs` (the analytic table tool).  The crate
modules `prob.rs`, `args.rs`, `quorum.rs`, `tools.rs`, `net.rs` and
`attack.rs` are not part of the available sources; the definitions that
stand in for them are modelled from the specification and are marked as
such in their doc comments.

Machine types: the Rust `NN = u64` is modelled as `Nat` (no modelled code
path performs arithmetic anywhere near `2^64`), and `RR = f64` is modelled
as `ℚ`, i.e. the real-number semantics of the floating computations.
-/

namespace RoutingSims

/-- Rust `type NN = u64` (src/src/main.rs line 39), modelled as `Nat`. -/
abbrev NN := Nat

/-- Rust `type RR = f64` (src/src/main.rs line 40), modelled as `ℚ`. -/
abbrev RR := ℚ

/-! ## Probability model (spec section 4.1) -/

/-- Modelled from the spec: operation `probability_quorum_compromised`,
implemented by `probQRChosen` in the crate module `prob.rs`, which is not
among the available sources (only its caller in
`src/examples/random_allocation.rs` line 98 is).  The spec gives the
closed form `P = Σ_{i=q}^{k} C(r,i)·C(n−r,k−i) / C(n,k)`. -/
def probQRChosen (n r k q : NN) : RR :=
  (∑ i ∈ Finset.Icc q k, ((r.choose i : ℚ) * ((n - r).choose (k - i) : ℚ))) /
    ((n.choose k : ℕ) : ℚ)

/-- Number of size-`k` subsets of a population of `n` nodes (taken as
`Finset.range n`) that contain at least `q` of the `r` malicious nodes
(taken as `Finset.range r`).  Dividing by the number of all size-`k`
subsets gives the probability that a uniformly random size-`k` subset
drawn without replacement contains at least `q` malicious members. -/
def compromisedSubsetCount (n r k q : NN) : NN :=
  (((Finset.range n).powersetCard k).filter
      (fun s => q ≤ (s ∩ Finset.range r).card)).card

/-- Value computed for one table cell by `main` in
`src/examples/random_allocation.rs` lines 92-99: when `qi > ki` the cell
is skipped (a dash is printed and `probQRChosen` is never called),
otherwise `probQRChosen(n, r, ki, qi) * mult` is printed, where
`mult = n / ki` when the any-group flag is set and `1` otherwise. -/
def cellOutput (any : Bool) (n r ki qi : NN) : Option RR :=
  if qi > ki then none
  else some (probQRChosen n r ki qi * (if any then (n : ℚ) / (ki : ℚ) else 1))

/-! ## Parameter conversion (src/src/main.rs lines 54-111) -/

/-- Modelled from the spec: the relative-or-absolute quantity type of the
crate module `args.rs`, which is not among the available sources.  A value
is either relative (a percentage) or absolute (spec sections 4.5 and 6:
ranges/percentages are resolved against the base quantity). -/
inductive RelOrAbs where
  | Rel (v : ℚ)
  | Abs (v : ℚ)
deriving DecidableEq

/-- Modelled from the spec: `RelOrAbs::from_base` of the missing
`args.rs`.  A relative value is a percentage of the base quantity
(`num_initial` at every call site in `ToolArgs::from_params`); an
absolute value is used unchanged. -/
def RelOrAbs.from_base (x : RelOrAbs) (base : ℚ) : ℚ :=
  match x with
  | .Rel r => r * (1 / 100) * base
  | .Abs a => a

/-- Modelled from the spec: the `SimParams` record of the missing
`args.rs`, holding exactly the fields read by `ToolArgs::from_params`
in src/src/main.rs lines 70-110. -/
structure SimParams where
  num_initial : NN
  num_attacking : RelOrAbs
  max_join : RelOrAbs
  add_good : RelOrAbs
  leave_good : RelOrAbs
  min_group_size : NN
  quorum_prop : RR
  proof_time : RR
  max_days : RR
deriving DecidableEq

/-- The `ToolArgs` struct of src/src/main.rs lines 54-68. -/
structure ToolArgs where
  num_initial : NN
  num_attacking : NN
  max_join_rate : RR
  add_rate_good : RR
  leave_rate_good : RR
  min_group_size : NN
  quorum_prop : RR
  max_steps : NN
deriving DecidableEq

/-- Converted per-step maximum join rate: `max_join.from_base(nn) / step_len`
(src/src/main.rs line 80). -/
def maxJoinConv (p : SimParams) : RR :=
  p.max_join.from_base (p.num_initial : ℚ) / p.proof_time

/-- Converted per-step background good join rate:
`add_good.from_base(nn) / step_len` (src/src/main.rs line 82). -/
def addGoodConv (p : SimParams) : RR :=
  p.add_good.from_base (p.num_initial : ℚ) / p.proof_time

/-- Converted per-step good leave probability (src/src/main.rs lines
83-87): a relative value is `r * 0.01` (a percentage, never scaled by
`num_initial`), an absolute value is used as is; either is then divided
by the step length. -/
def leaveGoodConv (p : SimParams) : RR :=
  (match p.leave_good with
    | .Rel r => r * (1 / 100)
    | .Abs a => a) / p.proof_time

/-- `ToolArgs::from_params` (src/src/main.rs lines 70-111).  The three
`assert!` calls (fatal precondition failures) are modelled by returning
`none`; a normal return is `some`.  The Rust `as NN` casts (truncation
toward zero, saturating at `0` for negative values) are modelled by
`Int.toNat` of the floor, and `.round()` by `round` (they agree on every
value whose truncation is representable, negative results saturating to
`0` on both sides). -/
def ToolArgs.from_params (params : SimParams) : Option ToolArgs :=
  if 0 ≤ params.quorum_prop ∧ params.quorum_prop ≤ 1 then
    if addGoodConv params < maxJoinConv params then
      if leaveGoodConv params < maxJoinConv params then
        some ⟨params.num_initial,
              (⌊params.num_attacking.from_base (params.num_initial : ℚ)⌋).toNat,
              maxJoinConv params,
              addGoodConv params,
              leaveGoodConv params,
              params.min_group_size,
              params.quorum_prop,
              (round (params.max_days / params.proof_time)).toNat⟩
      else none
    else none
  else none

/-- `ToolArgs::from_params` together with the slow-convergence advisory of
src/src/main.rs lines 90-98: the boolean records whether the `warn!` branch
was taken, i.e. whether `nn / (max_join - leave_good) > 10000`.  The
warning does not alter the constructed `ToolArgs` and does not abort. -/
def ToolArgs.from_params_logged (params : SimParams) :
    Option (ToolArgs × Bool) :=
  if 0 ≤ params.quorum_prop ∧ params.quorum_prop ≤ 1 then
    if addGoodConv params < maxJoinConv params then
      if leaveGoodConv params < maxJoinConv params then
        some (⟨params.num_initial,
               (⌊params.num_attacking.from_base (params.num_initial : ℚ)⌋).toNat,
               maxJoinConv params,
               addGoodConv params,
               leaveGoodConv params,
               params.min_group_size,
               params.quorum_prop,
               (round (params.max_days / params.proof_time)).toNat⟩,
              decide (10000 <
                (params.num_initial : ℚ) /
                  (maxJoinConv params - leaveGoodConv params)))
      else none
    else none
  else none

/-! ## Quorum policies (src/src/lib.rs lines 38-47, spec section 4.2) -/

/-- Modelled from the spec: the implementations of the `Quorum` trait of
src/src/lib.rs live in the missing crate module `quorum.rs`; the spec
(sections 4.2 and 9) describes a closed set of strategy variants:
`FixedProportion`, whose `quorum_size` always returns `Some`, and
`AgeWeighted`, whose `quorum_size` returns `None` because no single
integer threshold applies. -/
inductive QuorumStrategy where
  | FixedProportion (size : NN)
  | AgeWeighted (size : NN)
deriving DecidableEq

/-- `Quorum::quorum_size` (trait declared in src/src/lib.rs lines 39-42):
the stored threshold for `FixedProportion`, `none` for `AgeWeighted`. -/
def QuorumStrategy.quorum_size : QuorumStrategy → Option NN
  | .FixedProportion s => some s
  | .AgeWeighted _ => none

/-- `Quorum::set_quorum_size` (trait declared in src/src/lib.rs lines
43-46): stores the given number; for `AgeWeighted` the action is an
implementation choice since `quorum_size` returns `None`. -/
def QuorumStrategy.set_quorum_size : QuorumStrategy → NN → QuorumStrategy
  | .FixedProportion _, n => .FixedProportion n
  | .AgeWeighted _, n => .AgeWeighted n

/-! ## Analytic SimTool (src/src/lib.rs lines 50-80, spec section 4.1) -/

/-- Modelled from the spec: the analytic implementation of the `SimTool`
trait of src/src/lib.rs (the implementations live in the missing crate
module `tools.rs`).  It holds the `(n, r, k, q)` tuple of the analytic
path plus the any-group flag of `set_any` (src/src/lib.rs lines 71-76). -/
structure DirectCalcTool where
  total_nodes : NN
  malicious_nodes : NN
  min_group_size : NN
  quorum_size : NN
  any : Bool
deriving DecidableEq

/-- Modelled from the spec: construction of the analytic tool.  Per the
doc comment of `SimTool::set_any` (src/src/lib.rs line 75), on creation
the any-group flag is set to `false`. -/
def DirectCalcTool.new (n r k q : NN) : DirectCalcTool :=
  ⟨n, r, k, q, false⟩

/-- `SimTool::set_any` (src/src/lib.rs lines 71-76). -/
def DirectCalcTool.set_any (t : DirectCalcTool) (any : Bool) : DirectCalcTool :=
  { t with any := any }

/-- Modelled from the spec: `SimTool::calc_p_compromise` of the analytic
tool (missing `tools.rs`): the single-group probability `probQRChosen`,
scaled by `n / k` when the any-group flag is set (spec section 4.1,
matching the `mult` factor of src/examples/random_allocation.rs line 92). -/
def DirectCalcTool.calc_p_compromise (t : DirectCalcTool) : RR :=
  (if t.any then (t.total_nodes : ℚ) / (t.min_group_size : ℚ) else 1) *
    probQRChosen t.total_nodes t.malicious_nodes t.min_group_size t.quorum_size

/-! ## Churn simulator (spec sections 4.3-4.4)

The crate modules `net.rs`, `node.rs`, `attack.rs` and `tools.rs` are not
among the available sources; the simulator below is modelled from the
spec's words.  Group bookkeeping is abstracted to population counts (one
tracked group of size `min_group_size`); what matters for the claims
settled against it is its randomness discipline: every run is a pure
function of the parameters and of its own seed, with the pseudo-random
state threaded explicitly through the run and never shared across runs. -/

/-- Explicit pseudo-random source: one step of a 64-bit linear
congruential generator. -/
def lcgNext (s : ℕ) : ℕ :=
  (6364136223846793005 * s + 1442695040888963407) % (2 ^ 64)

/-- Modelled from the spec: per-run simulator state (spec section 4.4):
current good population, malicious nodes injected so far, the two event
flags, and the run's own pseudo-random state. -/
structure SimState where
  numGood : NN
  injected : NN
  disrupted : Bool
  compromised : Bool
  rng : ℕ
deriving DecidableEq

/-- Modelled from the spec: one step of the attacking phase (spec section
4.4): (1) inject malicious nodes bounded by `max_join_rate` until
`num_attacking` are in; (2) background good joins at
`add_rate_good` and good leaves at `leave_rate_good` (fractional parts
resolved by a random draw; malicious nodes never leave); (3) evaluate the
tracked group against the quorum policy, using a random draw against the
current hypergeometric compromise probability, and record a disruption
when leaves outpace joins beyond the merge capacity. -/
def simStep (a : ToolArgs) (st : SimState) : SimState :=
  let inj := min (⌊a.max_join_rate⌋).toNat (a.num_attacking - st.injected)
  let r1 := lcgNext st.rng
  let joins := (⌊a.add_rate_good⌋).toNat +
    (if r1 % 1000 < (⌊(a.add_rate_good - (⌊a.add_rate_good⌋ : ℚ)) * 1000⌋).toNat
     then 1 else 0)
  let r2 := lcgNext r1
  let expLeave : ℚ := a.leave_rate_good * (st.numGood : ℚ)
  let leaves := min st.numGood ((⌊expLeave⌋).toNat +
    (if r2 % 1000 < (⌊(expLeave - (⌊expLeave⌋ : ℚ)) * 1000⌋).toNat
     then 1 else 0))
  let good := st.numGood + joins - leaves
  let injected := st.injected + inj
  let quorumSz := (⌈a.quorum_prop * (a.min_group_size : ℚ)⌉).toNat
  let pC := probQRChosen (good + injected) injected a.min_group_size quorumSz
  let r3 := lcgNext r2
  ⟨good, injected,
   st.disrupted || decide (joins + a.min_group_size < leaves),
   st.compromised || decide (r3 % 1000000 < (⌊pC * 1000000⌋).toNat),
   r3⟩

/-- Modelled from the spec: the attacking-phase loop, terminating at
`max_steps` or as soon as compromise is recorded (spec section 4.4). -/
def simLoop (a : ToolArgs) : ℕ → SimState → SimState
  | 0, st => st
  | fuel + 1, st =>
      if st.compromised then st else simLoop a fuel (simStep a st)

/-- Modelled from the spec: one simulation run (spec section 4.4).  The
stabilizing phase is summarised by starting from the settled population
`num_initial` (the rate preconditions of `ToolArgs::from_params`
guarantee it is reached); the run then owns its own random source,
initialised from its seed alone, and yields the boolean pair
`(compromised, disrupted)`. -/
def runSim (a : ToolArgs) (seed : ℕ) : Bool × Bool :=
  let f := simLoop a a.max_steps ⟨a.num_initial, 0, false, false, lcgNext seed⟩
  (f.compromised, f.disrupted)

/-- The `SimResult` record (spec section 3): fractions of repeated runs
in which disruption and compromise occurred. -/
structure SimResult where
  p_disrupt : RR
  p_compromise : RR
deriving DecidableEq

/-- Modelled from the spec: reduction of the boolean outcome pairs of the
repeated runs into one `SimResult` by averaging (spec section 4.4). -/
def simResultOfOutcomes (outs : List (Bool × Bool)) : SimResult :=
  ⟨(outs.countP (fun o => o.2) : ℚ) / (outs.length : ℚ),
   (outs.countP (fun o => o.1) : ℚ) / (outs.length : ℚ)⟩

/-- Modelled from the spec: executing the runs of one parameter set
sequentially while threading an ambient state `g` (standing for any
environment a shared mutable generator would live in).  Each run's random
source is seeded from the run's own seed only, so `g` is never consulted;
it is stepped merely to represent the passage of the environment. -/
def runSeeded (a : ToolArgs) (g : ℕ) : List ℕ → List (Bool × Bool)
  | [] => []
  | s :: rest => runSim a s :: runSeeded a (lcgNext g) rest

/-! ## Parameter sweep (src/src/main.rs lines 113-129, spec section 4.5) -/

/-- Modelled from the spec: the seed of one work unit, derived from a
top-level seed plus the work unit's index (spec section 9). -/
def seedMix (seed0 i j : ℕ) : ℕ :=
  lcgNext (seed0 + 1000003 * i + j)

/-- Modelled from the spec: `item.result(repetitions)` of the missing
`tools.rs`, called by `main` in src/src/main.rs line 127 for the work
unit at index `idx`: convert the parameter set via
`ToolArgs::from_params` (a fatal precondition failure there, modelled as
`none`, aborts the sweep) and reduce `reps` independently seeded runs
into one `SimResult`. -/
def completionOf (reps seed0 : ℕ) (p : SimParams) (idx : ℕ) :
    Option (ToolArgs × SimResult) :=
  (ToolArgs.from_params p).map
    (fun a =>
      (a, simResultOfOutcomes
            (((List.range reps).map (seedMix seed0 idx)).map (runSim a))))

/-- Index-tagging of a work list, starting at index `j`: the spec's
index-tagged parallel map carries each work unit's original position
(spec section 9). -/
def tagIdx : ℕ → List α → List (ℕ × α)
  | _, [] => []
  | i, x :: xs => (i, x) :: tagIdx (i + 1) xs

/-- The index-tagged work units of the sweep of src/src/main.rs lines
123-129: the work unit for the parameter set at input position `i`
carries the tag `i` and produces that parameter set's record. -/
def sweepTagged (reps seed0 : ℕ) (ps : List SimParams) :
    List (ℕ × Option (ToolArgs × SimResult)) :=
  (tagIdx 0 ps).map (fun ip => (ip.1, completionOf reps seed0 ip.2 ip.1))

/-- The in-order sequential result sequence of the sweep: the record of
the parameter set at input position `i` sits at output position `i`. -/
def sweepResults (reps seed0 : ℕ) (ps : List SimParams) :
    List (Option (ToolArgs × SimResult)) :=
  (tagIdx 0 ps).map (fun ip => completionOf reps seed0 ip.2 ip.1)

/-- The deterministic index-preserving gather step of the parallel
sweep (`collect_into` over an indexed parallel iterator, src/src/main.rs
lines 124-129, spec sections 5 and 9): reassemble the completed work
units by their original index, independent of completion order. -/
def gatherByIndex (n : ℕ) (pairs : List (ℕ × α)) : List α :=
  (List.range n).filterMap
    (fun i => (pairs.find? (fun pr => pr.1 == i)).map Prod.snd)

/-! ## Concrete witness inputs -/

/-- Parameter set exercising the slow-convergence warning: converted
rates are `max_join = 100`, `add_good = 1`, `leave_good = 99` per step,
so `1000000 / (100 - 99) = 1000000 > 10000` steps are estimated. -/
def paramsSlow : SimParams :=
  ⟨1000000, .Abs 5, .Abs 100, .Abs 1, .Abs 99, 8, 1 / 2, 1, 3⟩

/-- Parameter set with a relative leave rate and a relative join rate. -/
def paramsRel : SimParams :=
  ⟨100, .Abs 5, .Rel 2, .Abs 1, .Rel 2, 8, 1 / 2, 1, 100⟩

/-- The `ToolArgs` produced from `paramsRel`. -/
def argsRel : ToolArgs :=
  ⟨100, 5, 2, 1, 1 / 50, 8, 1 / 2, 100⟩

/-- A two-element sweep input used to witness order preservation. -/
def paramsPair : List SimParams :=
  [⟨10, .Abs 2, .Abs 3, .Abs 1, .Abs (1 / 2), 8, 1 / 2, 1, 2⟩,
   ⟨12, .Abs 2, .Abs 3, .Abs 1, .Abs (1 / 2), 8, 1 / 2, 1, 2⟩]

/-! ## Combinatorial lemmas for the probability model -/

/-- Counting size-`k` subsets of `range n` whose intersection with the
malicious set `range r` has exactly `i` elements: there are
`C(r,i) · C(n−r,k−i)` of them (split a subset into its malicious and its
good part). -/
lemma card_filter_inter_powersetCard (n r k i : ℕ) (hr : r ≤ n) (hik : i ≤ k) :
    (((Finset.range n).powersetCard k).filter
        (fun s => (s ∩ Finset.range r).card = i)).card
      = r.choose i * (n - r).choose (k - i) := by
  have hMsub : Finset.range r ⊆ Finset.range n := Finset.range_subset.2 hr
  have hprod :
      r.choose i * (n - r).choose (k - i)
        = (((Finset.range r).powersetCard i) ×ˢ
            ((Finset.range n \ Finset.range r).powersetCard (k - i))).card := by
    rw [Finset.card_product, Finset.card_powersetCard, Finset.card_powersetCard,
      Finset.card_range, Finset.card_sdiff hMsub, Finset.card_range,
      Finset.card_range]
  rw [hprod]
  refine Finset.card_nbij'
    (fun s => (s ∩ Finset.range r, s \ Finset.range r))
    (fun p => p.1 ∪ p.2) ?_ ?_ ?_ ?_
  · intro s hs
    dsimp only
    rw [Finset.mem_filter, Finset.mem_powersetCard] at hs
    obtain ⟨⟨hsub, hcard⟩, hint⟩ := hs
    rw [Finset.mem_product, Finset.mem_powersetCard, Finset.mem_powersetCard]
    refine ⟨⟨Finset.inter_subset_right, hint⟩,
      Finset.sdiff_subset_sdiff hsub (Finset.Subset.refl _), ?_⟩
    show (s \ Finset.range r).card = k - i
    have hsplit := Finset.card_inter_add_card_sdiff s (Finset.range r)
    omega
  · intro p hp
    dsimp only
    rw [Finset.mem_product, Finset.mem_powersetCard, Finset.mem_powersetCard] at hp
    obtain ⟨⟨hu, hucard⟩, hv, hvcard⟩ := hp
    have hdisj : Disjoint p.2 (Finset.range r) :=
      Finset.disjoint_of_subset_left hv Finset.sdiff_disjoint
    have hvM : p.2 ∩ Finset.range r = ∅ :=
      Finset.disjoint_iff_inter_eq_empty.1 hdisj
    have hinter : (p.1 ∪ p.2) ∩ Finset.range r = p.1 := by
      rw [Finset.union_inter_distrib_right, Finset.inter_eq_left.2 hu, hvM,
        Finset.union_empty]
    have hdisj2 : Disjoint p.1 p.2 :=
      Finset.disjoint_of_subset_left hu hdisj.symm
    rw [Finset.mem_filter, Finset.mem_powersetCard]
    refine ⟨⟨Finset.union_subset (hu.trans hMsub) (hv.trans Finset.sdiff_subset), ?_⟩,
      by rw [hinter, hucard]⟩
    rw [Finset.card_union_of_disjoint hdisj2, hucard, hvcard]
    omega
  · intro s _
    dsimp only
    ext x
    simp only [Finset.mem_union, Finset.mem_inter, Finset.mem_sdiff]
    tauto
  · intro p hp
    dsimp only
    rw [Finset.mem_product, Finset.mem_powersetCard, Finset.mem_powersetCard] at hp
    obtain ⟨⟨hu, _⟩, hv, _⟩ := hp
    have hdisj : Disjoint p.2 (Finset.range r) :=
      Finset.disjoint_of_subset_left hv Finset.sdiff_disjoint
    have hvM : p.2 ∩ Finset.range r = ∅ :=
      Finset.disjoint_iff_inter_eq_empty.1 hdisj
    have h1 : (p.1 ∪ p.2) ∩ Finset.range r = p.1 := by
      rw [Finset.union_inter_distrib_right, Finset.inter_eq_left.2 hu, hvM,
        Finset.union_empty]
    have h2 : (p.1 ∪ p.2) \ Finset.range r = p.2 := by
      rw [Finset.union_sdiff_distrib, Finset.sdiff_eq_empty_iff_subset.2 hu,
        Finset.empty_union, sdiff_eq_self_iff_disjoint.2 hdisj.symm]
    exact Prod.ext h1 h2

/-- The number of size-`k` subsets with at least `q` malicious members is
the upper tail of the hypergeometric counting formula. -/
lemma compromisedSubsetCount_eq_sum (n r k q : ℕ) (hr : r ≤ n) :
    compromisedSubsetCount n r k q
      = ∑ i ∈ Finset.Icc q k, r.choose i * (n - r).choose (k - i) := by
  unfold compromisedSubsetCount
  have H : ∀ s ∈ ((Finset.range n).powersetCard k).filter
      (fun s => q ≤ (s ∩ Finset.range r).card),
      (s ∩ Finset.range r).card ∈ Finset.Icc q k := by
    intro s hs
    rw [Finset.mem_filter, Finset.mem_powersetCard] at hs
    obtain ⟨⟨_, hcard⟩, hq⟩ := hs
    rw [Finset.mem_Icc]
    exact ⟨hq, hcard ▸ Finset.card_le_card Finset.inter_subset_left⟩
  rw [Finset.card_eq_sum_card_fiberwise H]
  refine Finset.sum_congr rfl ?_
  intro i hi
  rw [Finset.mem_Icc] at hi
  have hfeq : ((Finset.range n).powersetCard k).filter
      (fun s => q ≤ (s ∩ Finset.range r).card ∧ (s ∩ Finset.range r).card = i)
      = ((Finset.range n).powersetCard k).filter
        (fun s => (s ∩ Finset.range r).card = i) := by
    refine Finset.filter_congr ?_
    intro s _
    constructor
    · rintro ⟨_, h⟩
      exact h
    · intro h
      exact ⟨h ▸ hi.1, h⟩
  rw [Finset.filter_filter, hfeq]
  exact card_filter_inter_powersetCard n r k i hr hi.2

/-- The hypergeometric upper-tail formula, expressed over `ℚ`, equals the
counting probability. -/
lemma probQRChosen_eq_count (n r k q : ℕ) (hr : r ≤ n) :
    probQRChosen n r k q
      = (compromisedSubsetCount n r k q : ℚ)
          / (((Finset.range n).powersetCard k).card : ℚ) := by
  rw [Finset.card_powersetCard, Finset.card_range, probQRChosen,
    compromisedSubsetCount_eq_sum n r k q hr]
  push_cast
  rfl

/-- The hypergeometric probability is nonnegative. -/
lemma probQRChosen_nonneg (n r k q : ℕ) : 0 ≤ probQRChosen n r k q := by
  unfold probQRChosen
  refine div_nonneg (Finset.sum_nonneg ?_) (by positivity)
  intro i _
  positivity

/-- The hypergeometric probability is at most one when `r ≤ n` and
`k ≤ n`. -/
lemma probQRChosen_le_one (n r k q : ℕ) (hr : r ≤ n) (hk : k ≤ n) :
    probQRChosen n r k q ≤ 1 := by
  rw [probQRChosen_eq_count n r k q hr]
  have hpos : 0 < (((Finset.range n).powersetCard k).card : ℚ) := by
    rw [Finset.card_powersetCard, Finset.card_range]
    exact_mod_cast Nat.choose_pos hk
  rw [div_le_one hpos]
  exact_mod_cast Finset.card_le_card (Finset.filter_subset _ _)

/-! ## Claim theorems -/

/-- C1: for every total population `n`, malicious count `r ≤ n`, group
size `k` with `1 ≤ k ≤ n` and quorum `q ≤ k`, `probQRChosen n r k q` is
the upper-tail hypergeometric sum `Σ_{i=q}^{k} C(r,i)·C(n−r,k−i) / C(n,k)`
and this equals the probability that a uniformly random size-`k` subset
of the `n` nodes (drawn without replacement) contains at least `q` of the
`r` malicious nodes, i.e. the number of such subsets divided by the
number of all size-`k` subsets. -/
theorem probQRChosen_is_hypergeometric_tail (n r k q : NN)
    (hr : r ≤ n) (hk1 : 1 ≤ k) (hkn : k ≤ n) (hq : q ≤ k) :
    probQRChosen n r k q
        = (∑ i ∈ Finset.Icc q k,
            ((r.choose i : ℚ) * ((n - r).choose (k - i) : ℚ))) / ((n.choose k : ℕ) : ℚ)
    ∧ probQRChosen n r k q
        = (compromisedSubsetCount n r k q : ℚ)
            / (((Finset.range n).powersetCard k).card : ℚ) :=
  ⟨rfl, probQRChosen_eq_count n r k q hr⟩

/-- C1 witness: at `n = 5`, `r = 2`, `k = 3`, `q = 1` the hypotheses hold
and the formula agrees with the subset count (both give `9 / 10`). -/
theorem probQRChosen_is_hypergeometric_tail_witness :
    (2 ≤ 5 ∧ 1 ≤ 3 ∧ 3 ≤ 5 ∧ 1 ≤ 3)
    ∧ (probQRChosen 5 2 3 1
        = (∑ i ∈ Finset.Icc 1 3,
            ((Nat.choose 2 i : ℚ) * (Nat.choose (5 - 2) (3 - i) : ℚ)))
              / ((Nat.choose 5 3 : ℕ) : ℚ)
      ∧ probQRChosen 5 2 3 1
        = (compromisedSubsetCount 5 2 3 1 : ℚ)
            / (((Finset.range 5).powersetCard 3).card : ℚ)) :=
  ⟨⟨by decide, by decide, by decide, by decide⟩,
    probQRChosen_is_hypergeometric_tail 5 2 3 1 (by decide) (by decide)
      (by decide) (by decide)⟩

/-- C6: whenever the required quorum exceeds the group size (`q > k`),
the probability is zero (the upper-tail sum is empty). -/
theorem probQRChosen_eq_zero_of_gt (n r k q : NN)
    (hr : r ≤ n) (hk1 : 1 ≤ k) (hkn : k ≤ n) (hq : k < q) :
    probQRChosen n r k q = 0 := by
  unfold probQRChosen
  rw [Finset.Icc_eq_empty (not_le.2 hq), Finset.sum_empty, zero_div]

/-- C6 witness: at `n = 5`, `r = 2`, `k = 3`, `q = 4` the hypotheses hold
and the probability is zero. -/
theorem probQRChosen_eq_zero_of_gt_witness :
    (2 ≤ 5 ∧ 1 ≤ 3 ∧ 3 ≤ 5 ∧ 3 < 4) ∧ probQRChosen 5 2 3 4 = 0 :=
  ⟨⟨by decide, by decide, by decide, by decide⟩,
    probQRChosen_eq_zero_of_gt 5 2 3 4 (by decide) (by decide) (by decide)
      (by decide)⟩

/-- C5: for `q ≤ k` the table cell of `random_allocation` is computed in
any-group mode as exactly `n / k` times the single-group value
`probQRChosen n r k q`, and with the flag off the multiplier is `1`, so
the single-group probability is reported unchanged. -/
theorem cellOutput_any_group_scaling (n r k q : NN) (hq : q ≤ k) :
    cellOutput true n r k q
        = some (((n : ℚ) / (k : ℚ)) * probQRChosen n r k q)
    ∧ cellOutput false n r k q = some (probQRChosen n r k q) := by
  have hnot : ¬ q > k := not_lt.2 hq
  refine ⟨?_, ?_⟩ <;> simp [cellOutput, hnot, mul_comm]

/-- C5 witness: at `n = 10`, `r = 3`, `k = 4`, `q = 2` the any-group cell
is `10/4` times the single-group one, which is reported unchanged when
the flag is off. -/
theorem cellOutput_any_group_scaling_witness :
    (2 ≤ 4)
    ∧ (cellOutput true 10 3 4 2
          = some (((10 : ℚ) / (4 : ℚ)) * probQRChosen 10 3 4 2)
      ∧ cellOutput false 10 3 4 2 = some (probQRChosen 10 3 4 2)) :=
  ⟨by decide, cellOutput_any_group_scaling 10 3 4 2 (by decide)⟩

/-- C2: `ToolArgs::from_params` fails (a fatal precondition failure,
modelled as `none`) if and only if the configuration is invalid:
`quorum_prop` outside `[0, 1]`, or the converted per-step `max_join_rate`
does not strictly exceed `add_rate_good`, or it does not strictly exceed
`leave_rate_good`; on every parameter set satisfying all three conditions
it returns a `ToolArgs` normally. -/
theorem from_params_fails_iff_invalid (p : SimParams) :
    (ToolArgs.from_params p = none ↔
      (p.quorum_prop < 0 ∨ 1 < p.quorum_prop ∨
        maxJoinConv p ≤ addGoodConv p ∨ maxJoinConv p ≤ leaveGoodConv p))
    ∧ ((ToolArgs.from_params p).isSome ↔
      (0 ≤ p.quorum_prop ∧ p.quorum_prop ≤ 1 ∧
        addGoodConv p < maxJoinConv p ∧ leaveGoodConv p < maxJoinConv p)) := by
  have main : ToolArgs.from_params p = none ↔
      (p.quorum_prop < 0 ∨ 1 < p.quorum_prop ∨
        maxJoinConv p ≤ addGoodConv p ∨ maxJoinConv p ≤ leaveGoodConv p) := by
    unfold ToolArgs.from_params
    split_ifs with h1 h2 h3
    · have hval : ¬ (p.quorum_prop < 0 ∨ 1 < p.quorum_prop ∨
          maxJoinConv p ≤ addGoodConv p ∨ maxJoinConv p ≤ leaveGoodConv p) := by
        push_neg
        exact ⟨h1.1, h1.2, h2, h3⟩
      simp [hval]
    · simp only [iff_true_intro rfl, true_iff]
      exact Or.inr (Or.inr (Or.inr (not_lt.1 h3)))
    · simp only [iff_true_intro rfl, true_iff]
      exact Or.inr (Or.inr (Or.inl (not_lt.1 h2)))
    · simp only [iff_true_intro rfl, true_iff]
      rcases not_and_or.1 h1 with h | h
      · exact Or.inl (not_le.1 h)
      · exact Or.inr (Or.inl (not_le.1 h))
  refine ⟨main, ?_⟩
  rw [← Option.not_isSome_iff_eq_none] at main
  constructor
  · intro hs
    have := main.not.1 (by simp [hs])
    push_neg at this
    exact this
  · intro hv
    by_contra hns
    exact absurd (main.1 hns)
      (by push_neg
          exact ⟨hv.1, hv.2.1, hv.2.2.1, hv.2.2.2⟩)

/-- C7: when the configuration is valid but the estimated stabilization
step count `num_initial / (max_join_rate − leave_rate_good)` exceeds
10000, the conversion only records a non-fatal warning: it still returns
normally, with exactly the `ToolArgs` that `from_params` produces. -/
theorem from_params_slow_convergence_warning_nonfatal (p : SimParams)
    (hq0 : 0 ≤ p.quorum_prop) (hq1 : p.quorum_prop ≤ 1)
    (hadd : addGoodConv p < maxJoinConv p)
    (hleave : leaveGoodConv p < maxJoinConv p)
    (hslow : 10000 <
      (p.num_initial : ℚ) / (maxJoinConv p - leaveGoodConv p)) :
    ToolArgs.from_params_logged p
        = (ToolArgs.from_params p).map (fun a => (a, true))
    ∧ (ToolArgs.from_params p).isSome := by
  have h1 : 0 ≤ p.quorum_prop ∧ p.quorum_prop ≤ 1 := ⟨hq0, hq1⟩
  unfold ToolArgs.from_params_logged ToolArgs.from_params
  rw [if_pos h1, if_pos hadd, if_pos hleave, if_pos h1, if_pos hadd,
    if_pos hleave, decide_eq_true hslow]
  exact ⟨rfl, rfl⟩

/-- C7 witness: `paramsSlow` satisfies the validity conditions, its
estimated stabilization step count is `1000000 > 10000`, and the logged
conversion returns the unchanged `ToolArgs` together with the warning
flag. -/
theorem from_params_slow_convergence_warning_nonfatal_witness :
    (0 ≤ paramsSlow.quorum_prop ∧ paramsSlow.quorum_prop ≤ 1
      ∧ addGoodConv paramsSlow < maxJoinConv paramsSlow
      ∧ leaveGoodConv paramsSlow < maxJoinConv paramsSlow
      ∧ 10000 < (paramsSlow.num_initial : ℚ) /
          (maxJoinConv paramsSlow - leaveGoodConv paramsSlow))
    ∧ (ToolArgs.from_params_logged paramsSlow
          = (ToolArgs.from_params paramsSlow).map (fun a => (a, true))
      ∧ (ToolArgs.from_params paramsSlow).isSome) := by
  have h1 : 0 ≤ paramsSlow.quorum_prop := by norm_num [paramsSlow]
  have h2 : paramsSlow.quorum_prop ≤ 1 := by norm_num [paramsSlow]
  have h3 : addGoodConv paramsSlow < maxJoinConv paramsSlow := by
    norm_num [addGoodConv, maxJoinConv, paramsSlow, RelOrAbs.from_base]
  have h4 : leaveGoodConv paramsSlow < maxJoinConv paramsSlow := by
    norm_num [leaveGoodConv, maxJoinConv, paramsSlow, RelOrAbs.from_base]
  have h5 : 10000 < (paramsSlow.num_initial : ℚ) /
      (maxJoinConv paramsSlow - leaveGoodConv paramsSlow) := by
    norm_num [maxJoinConv, leaveGoodConv, paramsSlow, RelOrAbs.from_base]
  exact ⟨⟨h1, h2, h3, h4, h5⟩,
    from_params_slow_convergence_warning_nonfatal paramsSlow h1 h2 h3 h4 h5⟩

/-- C10: the per-step leave probability produced by
`ToolArgs::from_params` interprets a relative `leave_good` value `Rel r`
as a percentage, `r · 0.01 / proof_time`, and an absolute value `Abs x`
as `x / proof_time`; unlike `num_attacking`, `max_join` and `add_good`
(which go through `from_base`), it is never scaled by `num_initial`. -/
theorem from_params_leave_good_unscaled (p : SimParams) (a : ToolArgs)
    (h : ToolArgs.from_params p = some a) :
    a.leave_rate_good = leaveGoodConv p
    ∧ (∀ r, p.leave_good = RelOrAbs.Rel r →
        a.leave_rate_good = r * (1 / 100) / p.proof_time)
    ∧ (∀ x, p.leave_good = RelOrAbs.Abs x →
        a.leave_rate_good = x / p.proof_time)
    ∧ (∀ m, leaveGoodConv { p with num_initial := m } = leaveGoodConv p)
    ∧ (∀ r, p.max_join = RelOrAbs.Rel r →
        maxJoinConv p = r * (1 / 100) * (p.num_initial : ℚ) / p.proof_time) := by
  unfold ToolArgs.from_params at h
  split_ifs at h with h1 h2 h3
  have ha := (Option.some.inj h).symm
  subst ha
  refine ⟨rfl, ?_, ?_, fun m => rfl, ?_⟩
  · intro r hrel
    show leaveGoodConv p = _
    rw [leaveGoodConv, hrel]
  · intro x habs
    show leaveGoodConv p = _
    rw [leaveGoodConv, habs]
  · intro r hrel
    rw [maxJoinConv, hrel]
    rfl

/-- C10 witness: `paramsRel` converts to `argsRel`; its relative leave
value `Rel 2` yields the per-step probability `2/100 / 1 = 1/50`
independent of `num_initial`, while its relative `max_join` value `Rel 2`
yields `2/100 · 100 / 1 = 2`, scaled by `num_initial`. -/
theorem from_params_leave_good_unscaled_witness :
    ToolArgs.from_params paramsRel = some argsRel
    ∧ (argsRel.leave_rate_good = leaveGoodConv paramsRel
      ∧ (∀ r, paramsRel.leave_good = RelOrAbs.Rel r →
          argsRel.leave_rate_good = r * (1 / 100) / paramsRel.proof_time)
      ∧ (∀ x, paramsRel.leave_good = RelOrAbs.Abs x →
          argsRel.leave_rate_good = x / paramsRel.proof_time)
      ∧ (∀ m, leaveGoodConv { paramsRel with num_initial := m }
            = leaveGoodConv paramsRel)
      ∧ (∀ r, paramsRel.max_join = RelOrAbs.Rel r →
          maxJoinConv paramsRel
            = r * (1 / 100) * (paramsRel.num_initial : ℚ) /
                paramsRel.proof_time)) := by
  have h : ToolArgs.from_params paramsRel = some argsRel := by
    norm_num [ToolArgs.from_params, paramsRel, argsRel, maxJoinConv,
      addGoodConv, leaveGoodConv, RelOrAbs.from_base, round_eq] <;> decide
  exact ⟨h, from_params_leave_good_unscaled paramsRel argsRel h⟩

/-- C8: for every quorum strategy, after `set_quorum_size n` a
`quorum_size` call that does not return `None` returns exactly `Some n`,
the value last set (the round-trip contract of the `Quorum` trait,
src/src/lib.rs lines 43-46). -/
theorem quorum_set_get_round_trip (v : QuorumStrategy) (n : NN)
    (h : v.quorum_size ≠ none) :
    (v.set_quorum_size n).quorum_size = some n := by
  cases v with
  | FixedProportion s => rfl
  | AgeWeighted s =>
      exact absurd rfl h

/-- C8 witness: the fixed-proportion strategy reads back `7` after it is
set to `7`. -/
theorem quorum_set_get_round_trip_witness :
    (QuorumStrategy.FixedProportion 5).quorum_size ≠ none
    ∧ ((QuorumStrategy.FixedProportion 5).set_quorum_size 7).quorum_size
        = some 7 :=
  ⟨by decide, quorum_set_get_round_trip (QuorumStrategy.FixedProportion 5) 7
    (by decide)⟩

/-- C9: a freshly created analytic tool has the any-group flag `false`,
so `calc_p_compromise` returns the single-group probability
`probQRChosen` unchanged, a value between `0` and `1` (given `r ≤ n` and
`k ≤ n`), until `set_any true` is called. -/
theorem new_tool_single_group_probability (n r k q : NN)
    (hr : r ≤ n) (hk : k ≤ n) :
    (DirectCalcTool.new n r k q).any = false
    ∧ (DirectCalcTool.new n r k q).calc_p_compromise = probQRChosen n r k q
    ∧ 0 ≤ (DirectCalcTool.new n r k q).calc_p_compromise
    ∧ (DirectCalcTool.new n r k q).calc_p_compromise ≤ 1
    ∧ ((DirectCalcTool.new n r k q).set_any true).any = true := by
  have hcalc : (DirectCalcTool.new n r k q).calc_p_compromise
      = probQRChosen n r k q := by
    unfold DirectCalcTool.calc_p_compromise DirectCalcTool.new
    rw [if_neg Bool.false_ne_true, one_mul]
  exact ⟨rfl, hcalc, hcalc ▸ probQRChosen_nonneg n r k q,
    hcalc ▸ probQRChosen_le_one n r k q hr hk, rfl⟩

/-- C9 witness: at `n = 5`, `r = 2`, `k = 3`, `q = 1` the fresh tool
reports the single-group probability `9/10 ∈ [0, 1]`. -/
theorem new_tool_single_group_probability_witness :
    (2 ≤ 5 ∧ 3 ≤ 5)
    ∧ ((DirectCalcTool.new 5 2 3 1).any = false
      ∧ (DirectCalcTool.new 5 2 3 1).calc_p_compromise = probQRChosen 5 2 3 1
      ∧ 0 ≤ (DirectCalcTool.new 5 2 3 1).calc_p_compromise
      ∧ (DirectCalcTool.new 5 2 3 1).calc_p_compromise ≤ 1
      ∧ ((DirectCalcTool.new 5 2 3 1).set_any true).any = true) :=
  ⟨⟨by decide, by decide⟩,
    new_tool_single_group_probability 5 2 3 1 (by decide) (by decide)⟩

/-- C3: running the simulator over the same seed sequence with the same
parameters yields identical boolean outcome pairs run for run — whatever
the ambient state `g` of the execution is, since every run's random
source is derived from its own seed alone — and hence an identical
`SimResult`. -/
theorem simulation_deterministic_in_seeds (a : ToolArgs) (seeds : List ℕ)
    (g g' : ℕ) :
    runSeeded a g seeds = runSeeded a g' seeds
    ∧ runSeeded a g seeds = seeds.map (runSim a)
    ∧ simResultOfOutcomes (runSeeded a g seeds)
        = simResultOfOutcomes (runSeeded a g' seeds) := by
  have key : ∀ (gg : ℕ) (ss : List ℕ),
      runSeeded a gg ss = ss.map (runSim a) := by
    intro gg ss
    induction ss generalizing gg with
    | nil => rfl
    | cons s rest ih => simp [runSeeded, ih]
  exact ⟨(key g seeds).trans (key g' seeds).symm, key g seeds,
    by rw [key g seeds, key g' seeds]⟩

/-! ## Order preservation of the parallel sweep -/

/-- Tagging preserves length. -/
lemma tagIdx_length (j : ℕ) (l : List α) : (tagIdx j l).length = l.length := by
  induction l generalizing j with
  | nil => rfl
  | cons x xs ih => simp [tagIdx, ih]

/-- The tags of `tagIdx j l` are `j, j+1, …`. -/
lemma tagIdx_map_fst (j : ℕ) (l : List α) :
    (tagIdx j l).map Prod.fst = (List.range l.length).map (fun i => j + i) := by
  induction l generalizing j with
  | nil => rfl
  | cons x xs ih =>
      rw [tagIdx, List.map_cons, ih (j + 1), List.length_cons,
        List.range_succ_eq_map, List.map_cons, List.map_map]
      refine congrArg₂ List.cons (by omega) ?_
      refine List.map_congr_left ?_
      intro i _
      show (j + 1) + i = j + (i + 1)
      omega

/-- Entry lookup in a tagged list. -/
lemma tagIdx_getElem? (j : ℕ) (l : List α) (i : ℕ) :
    (tagIdx j l)[i]? = l[i]?.map (fun x => (j + i, x)) := by
  induction l generalizing j i with
  | nil => simp [tagIdx]
  | cons x xs ih =>
      cases i with
      | zero => simp [tagIdx]
      | succ m =>
          rw [tagIdx, List.getElem?_cons_succ, List.getElem?_cons_succ, ih]
          have harith : ∀ y : α, ((j + 1) + m, y) = (j + (m + 1), y) := by
            intro y
            refine congrArg₂ Prod.mk (by omega) rfl
          cases xs[m]? with
          | none => rfl
          | some y => simp [harith y]

/-- In a list of tagged entries whose tags are distinct, `find?` on a tag
recovers exactly the entry carrying that tag, wherever it sits. -/
lemma find?_of_mem_keysNodup (l : List (ℕ × β)) (i : ℕ) (b : β)
    (hnd : (l.map Prod.fst).Nodup) (hmem : (i, b) ∈ l) :
    l.find? (fun pr => pr.1 == i) = some (i, b) := by
  induction l with
  | nil => cases hmem
  | cons hd tl ih =>
      rw [List.map_cons, List.nodup_cons] at hnd
      rcases List.mem_cons.1 hmem with heq | htl
      · rw [← heq]
        exact List.find?_cons_of_pos _ (by simp)
      · have hne : hd.1 ≠ i := by
          intro hcontra
          exact hnd.1 (hcontra ▸ List.mem_map_of_mem Prod.fst htl)
        rw [List.find?_cons_of_neg _ (by simpa using hne)]
        exact ih hnd.2 htl

/-- Gathering a tag-keyed list along its own (duplicate-free) key
sequence returns the payloads in key order. -/
lemma filterMap_find?_eq_map_snd (t : List (ℕ × β)) (idx : List ℕ)
    (hnd : idx.Nodup) (hkeys : t.map Prod.fst = idx) :
    idx.filterMap
        (fun i => (t.find? (fun pr => pr.1 == i)).map Prod.snd)
      = t.map Prod.snd := by
  induction t generalizing idx with
  | nil =>
      rw [← hkeys]
      rfl
  | cons hd tl ih =>
      rw [← hkeys] at hnd ⊢
      rw [List.map_cons] at hnd ⊢
      rw [List.nodup_cons] at hnd
      rw [List.filterMap_cons]
      rw [List.find?_cons_of_pos _ (by simp)]
      show Prod.snd hd :: _ = _
      refine congrArg₂ List.cons rfl ?_
      have hcong : ∀ i ∈ tl.map Prod.fst,
          (((hd :: tl).find? (fun pr => pr.1 == i)).map Prod.snd)
            = ((tl.find? (fun pr => pr.1 == i)).map Prod.snd) := by
        intro i hi
        have hne : ¬ hd.1 = i := by
          intro hcontra
          exact hnd.1 (hcontra ▸ hi)
        rw [List.find?_cons_of_neg _ (by simpa using hne)]
      rw [List.filterMap_congr hcong]
      exact ih (tl.map Prod.fst) hnd.2 rfl

/-- C4: whatever order the parallel work units complete in (any
permutation `completed` of the index-tagged work units), the gathered
result sequence equals the sequential in-order sweep: it has exactly the
input's length, and the record at each index `i` is the one computed
from the parameter set at index `i` of the input. -/
theorem sweep_preserves_input_order (reps seed0 : ℕ) (ps : List SimParams)
    (completed : List (ℕ × Option (ToolArgs × SimResult)))
    (hperm : completed.Perm (sweepTagged reps seed0 ps)) :
    gatherByIndex ps.length completed = sweepResults reps seed0 ps
    ∧ (gatherByIndex ps.length completed).length = ps.length
    ∧ ∀ i, i < ps.length →
        (gatherByIndex ps.length completed)[i]?
          = (ps[i]?).map (fun p => completionOf reps seed0 p i) := by
  have hkeys : (sweepTagged reps seed0 ps).map Prod.fst
      = List.range ps.length := by
    rw [sweepTagged, List.map_map]
    have hcomp : (Prod.fst ∘ fun ip : ℕ × SimParams =>
        (ip.1, completionOf reps seed0 ip.2 ip.1)) = Prod.fst := rfl
    rw [hcomp, tagIdx_map_fst]
    simp
  have hsnd : (sweepTagged reps seed0 ps).map Prod.snd
      = sweepResults reps seed0 ps := by
    rw [sweepTagged, sweepResults, List.map_map]
    rfl
  have hnodup_orig : ((sweepTagged reps seed0 ps).map Prod.fst).Nodup :=
    hkeys ▸ List.nodup_range _
  have hnodup_completed : (completed.map Prod.fst).Nodup :=
    ((hperm.map Prod.fst).nodup_iff).2 hnodup_orig
  have hfind : ∀ i ∈ List.range ps.length,
      ((completed.find? (fun pr => pr.1 == i)).map Prod.snd)
        = (((sweepTagged reps seed0 ps).find? (fun pr => pr.1 == i)).map
            Prod.snd) := by
    intro i hi
    rw [← hkeys] at hi
    obtain ⟨pr, hpr, hfst⟩ := List.mem_map.1 hi
    have hpr' : (i, pr.2) ∈ sweepTagged reps seed0 ps := by
      rw [← hfst]
      simpa using hpr
    rw [find?_of_mem_keysNodup completed i pr.2 hnodup_completed
        (hperm.mem_iff.2 hpr'),
      find?_of_mem_keysNodup (sweepTagged reps seed0 ps) i pr.2 hnodup_orig
        hpr']
  have hmain : gatherByIndex ps.length completed
      = sweepResults reps seed0 ps := by
    rw [gatherByIndex, List.filterMap_congr hfind, ← hsnd]
    exact filterMap_find?_eq_map_snd (sweepTagged reps seed0 ps)
      (List.range ps.length) (List.nodup_range _) hkeys
  refine ⟨hmain, ?_, ?_⟩
  · rw [hmain, sweepResults, List.length_map, tagIdx_length]
  · intro i hi
    rw [hmain, sweepResults, List.getElem?_map, tagIdx_getElem?,
      Option.map_map]
    simp
    rfl

/-- C4 witness: for the two-element sweep input `paramsPair`, gathering
the reversed (out-of-order) completion list reproduces the in-order
result sequence, with matching length and entries. -/
theorem sweep_preserves_input_order_witness :
    ((sweepTagged 2 7 paramsPair).reverse).Perm (sweepTagged 2 7 paramsPair)
    ∧ (gatherByIndex paramsPair.length (sweepTagged 2 7 paramsPair).reverse
          = sweepResults 2 7 paramsPair
      ∧ (gatherByIndex paramsPair.length
            (sweepTagged 2 7 paramsPair).reverse).length = paramsPair.length
      ∧ ∀ i, i < paramsPair.length →
          (gatherByIndex paramsPair.length
              (sweepTagged 2 7 paramsPair).reverse)[i]?
            = (paramsPair[i]?).map (fun p => completionOf 2 7 p i)) :=
  ⟨List.reverse_perm _,
    sweep_preserves_input_order 2 7 paramsPair
      (sweepTagged 2 7 paramsPair).reverse (List.reverse_perm _)⟩

end RoutingSims
